import Mathlib

/-!
Verification of the audio-tone FSK codec (frequency analyzer + sine generators).

The development shallowly embeds the C++ sources:
* `freq_analyzer.cpp` — recursive Cooley-Tukey `fft`, `getTop8Frequencies`,
  `frequenciesToByte`, and the chunked session loop in `main`;
* `sine_generator.cpp` / its multi-tone variant — `binary_to_bits`,
  `binary_to_bytes`, and the multi-tone `sine_gen` sample synthesis.

Machine doubles are idealized as exact real (or, where only the ordered-field
structure matters, generic linearly-ordered-field) arithmetic; `int16_t`
casts are modelled as truncation toward zero; `std::vector` as `List`,
in-place mutation as explicit state passing.  Console output is dropped.
-/

open Finset in
/-- Sum over an even range splits into even-index and odd-index parts. -/
theorem sum_range_even_odd {M : Type} [AddCommMonoid M] (m : ℕ) (f : ℕ → M) :
    ∑ n ∈ Finset.range (2 * m), f n
      = (∑ j ∈ Finset.range m, f (2 * j)) + ∑ j ∈ Finset.range m, f (2 * j + 1) := by
  induction m with
  | zero => simp
  | succ m ih =>
    have h2 : 2 * (m + 1) = (2 * m) + 1 + 1 := by ring
    rw [h2, Finset.sum_range_succ, Finset.sum_range_succ,
      Finset.sum_range_succ (fun j => f (2 * j)), Finset.sum_range_succ (fun j => f (2 * j + 1)),
      ih]
    ring_nf
    abel

/-! ## Bit Classifier (`freq_analyzer.cpp`, `bitFrequencyPairs` and `frequenciesToByte`)

The classifier is generic over a linearly ordered field: the C++ only uses
ordered-field operations on the detected frequencies. -/

/-- Frequency mapping for bit positions (decoder table `bitFrequencyPairs`). -/
def bitFrequencyPairs {K : Type} [LinearOrderedField K] : List (K × K) :=
  [(300, 500), (700, 900), (1100, 1300), (1500, 1700),
   (1900, 2100), (2300, 2500), (2700, 2900), (3100, 3300)]

/-- One iteration of the inner scan in `frequenciesToByte`: state is
`(bit0Detected, bit1Detected, minDiff, closestFreq)`; the two `if`s of the
C++ body run in sequence. -/
def scanFreq {K : Type} [LinearOrderedField K] (lo hi f : K)
    (s : Bool × Bool × K × K) : Bool × Bool × K × K :=
  let d0 := |f - lo|
  let d1 := |f - hi|
  let s1 := if d0 < 50 ∧ d0 < s.2.2.1 then (true, false, d0, f) else s
  if d1 < 50 ∧ d1 < s1.2.2.1 then (false, true, d1, f) else s1

/-- The per-bit-position loop of `frequenciesToByte`: scans every detected
frequency and returns `(bit1Detected, closestFreq)` (that is, the stored
`bits[i]` as a `Bool` and `closestFreqs[i]`). -/
def classifyBit {K : Type} [LinearOrderedField K] (lo hi : K) (detected : List K) :
    Bool × K :=
  let s := detected.foldl (fun s f => scanFreq lo hi f s) (false, false, 1000, 0)
  (s.2.1, s.2.2.2)

/-- The first pass of `frequenciesToByte`: the eight resolved bit values. -/
def classifyBits {K : Type} [LinearOrderedField K] (detected : List K) : List Bool :=
  (List.range 8).map fun i =>
    let p := (bitFrequencyPairs (K := K)).getD i (0, 0)
    (classifyBit p.1 p.2 detected).1

/-- Byte assembly of `frequenciesToByte`:
`if (bits[i]) byteValue |= (1 << (7 - i));` for `i = 0..7`. -/
def bitsToByte (bits : List Bool) : ℕ :=
  (List.range 8).foldl (fun v i => if bits.getD i false then v ||| (1 <<< (7 - i)) else v) 0

/-- `frequenciesToByte` from `freq_analyzer.cpp` (console output dropped). -/
def frequenciesToByte {K : Type} [LinearOrderedField K] (detected : List K) : ℕ :=
  bitsToByte (classifyBits detected)

/-- `bitsToByte` depends only on the first eight entries, read with `getD`. -/
theorem bitsToByte_eq_fun (bits : List Bool) :
    bitsToByte bits =
      bitsToByte [bits.getD 0 false, bits.getD 1 false, bits.getD 2 false,
        bits.getD 3 false, bits.getD 4 false, bits.getD 5 false,
        bits.getD 6 false, bits.getD 7 false] := by
  simp [bitsToByte, List.range_succ]

/-- **C2.** The claim asserts that table bit position 0 lands at the
least-significant bit of the assembled byte; but the assembly rule
`byteValue |= bitValue_i << (7 − i)` (which the code implements verbatim)
sends position 0 to the *most*-significant bit: a bit vector with only
position 0 set assembles to 128, not 1. -/
theorem bitsToByte_pos0_msb :
    bitsToByte [true, false, false, false, false, false, false, false] = 128 ∧
      bitsToByte [true, false, false, false, false, false, false, false] ≠ 1 := by
  constructor <;> decide

/-- **C2 (amended).** The assembled byte places table bit position `i` at byte
bit `7 − i`: position 0 is the most-significant bit and position 7 the
least-significant bit, via `byteValue |= bitValue_i << (7 − i)`; equivalently
the byte value is `∑ i, bits[i] * 2^(7−i)`. -/
theorem bitsToByte_spec (bits : List Bool) :
    bitsToByte bits = ∑ i ∈ Finset.range 8, if bits.getD i false then 2 ^ (7 - i) else 0 := by
  rw [bitsToByte_eq_fun]
  simp only [Finset.sum_range_succ, Finset.sum_range_zero]
  generalize bits.getD 0 false = b0
  generalize bits.getD 1 false = b1
  generalize bits.getD 2 false = b2
  generalize bits.getD 3 false = b3
  generalize bits.getD 4 false = b4
  generalize bits.getD 5 false = b5
  generalize bits.getD 6 false = b6
  generalize bits.getD 7 false = b7
  revert b0 b1 b2 b3 b4 b5 b6 b7
  decide

/-! ## Session-loop down-mix (`freq_analyzer.cpp` `main`, stereo-to-mono)

The C++ averages in place:
`buffer[i] = 0; for (ch) buffer[i] += buffer[i*numChannels + ch]; buffer[i] /= numChannels;`
so the state threading below reproduces the aliasing of index `i` exactly. -/

/-- The channel-accumulation inner loop for one sample index `i`. -/
def downmixAt {K : Type} [DivisionRing K] (numChannels i : ℕ) (buf : List K) : List K :=
  let b := (List.range numChannels).foldl
    (fun b ch => b.set i (b.getD i 0 + b.getD (i * numChannels + ch) 0)) (buf.set i 0)
  b.set i (b.getD i 0 / (numChannels : K))

/-- The stereo-to-mono down-mix loop over sample indices `0 ≤ i < readSamples`. -/
def downmix {K : Type} [DivisionRing K] (numChannels readSamples : ℕ) (buf : List K) :
    List K :=
  (List.range readSamples).foldl (fun b i => downmixAt numChannels i b) buf

/-- **C4 (code bug).** For a 2-channel window whose two channels carry the
identical sample 1, the down-mix produces `1/2` at sample index 0 (the
in-place accumulation zeroes `buffer[0]` before reading it as channel A of
frame 0), not the channel value 1 demanded by the down-mix law; index 1
is correctly averaged. -/
theorem downmix_frame0_not_identity :
    (downmix 2 2 [(1 : ℚ), 1, 1, 1]).getD 0 0 = 1 / 2 ∧
      (downmix 2 2 [(1 : ℚ), 1, 1, 1]).getD 0 0 ≠ 1 ∧
      (downmix 2 2 [(1 : ℚ), 1, 1, 1]).getD 1 0 = 1 := by
  refine ⟨?_, ?_, ?_⟩ <;> norm_num [downmix, downmixAt, List.range_succ]

/-! ## Waveform synthesizer (`sine_gen`, multi-tone variant of `sine_generator.cpp`)

The embedding follows the variant whose bit selection is
`(current_byte >> (7 - bit)) & 1` (MSB-first), matching the decoder's
assembly rule.  Doubles are exact reals; the `int16_t` cast truncates
toward zero. -/

/-- Truncation toward zero, the behavior of `static_cast<int16_t>` on an
in-range `double`. -/
noncomputable def i16trunc (y : ℝ) : ℤ := if 0 ≤ y then ⌊y⌋ else ⌈y⌉

/-- Encoder frequency table `freq_table` of the multi-tone `sine_gen`
(text-identical to the decoder's `bitFrequencyPairs`). -/
def freq_table {K : Type} [LinearOrderedField K] : List (K × K) :=
  [(300, 500), (700, 900), (1100, 1300), (1500, 1700),
   (1900, 2100), (2300, 2500), (2700, 2900), (3100, 3300)]

/-- The two tables are the same list. -/
theorem freq_table_eq_bitFrequencyPairs {K : Type} [LinearOrderedField K] :
    freq_table (K := K) = bitFrequencyPairs := rfl

/-- The multi-tone `sine_gen` sample buffer: for each sample index `i`,
time `t = i / sample_rate`, byte index `floor(t / bit_duration)` clamped to
the last byte, and the sum of the eight per-bit-position tones selected
MSB-first from `freq_table`, averaged, scaled, and truncated to 16-bit PCM. -/
noncomputable def sineGenSamples (msgBytes : List ℕ) (bps levelDbfs sampleRateKhz : ℝ) :
    List ℤ :=
  let sampleRate := sampleRateKhz * 1000
  let amplitude := (10 : ℝ) ^ (levelDbfs / 20)
  let numBytes := msgBytes.length
  let bitDuration := 1 / bps
  let totalDuration := bitDuration * (numBytes : ℝ)
  let numSamples := (⌊totalDuration * sampleRate⌋).toNat
  (List.range numSamples).map fun (i : ℕ) =>
    let t := ((i : ℕ) : ℝ) / sampleRate
    let bi0 := (⌊t / bitDuration⌋).toNat
    let byteIndex := if numBytes ≤ bi0 then numBytes - 1 else bi0
    let currentByte := msgBytes.getD byteIndex 0
    let sample := ∑ bit ∈ Finset.range 8,
      Real.sin (2 * Real.pi *
        (if (currentByte >>> (7 - bit)) &&& 1 = 1
          then ((freq_table (K := ℝ)).getD bit (0, 0)).2
          else ((freq_table (K := ℝ)).getD bit (0, 0)).1) * t)
    i16trunc (sample / 8 * amplitude * 32767)

/-- **C8 (counterexample).** At one byte, 3 bytes per second and a
44.102 kHz sample rate, the synthesizer emits `⌊44102/3⌋ = 14700` samples,
not `round(44102/3) = 14701` as the claim's rounding rule demands. -/
theorem sineGenSamples_length_not_round :
    (sineGenSamples [65] 3 0 (44102 / 1000)).length = 14700 ∧
      (round (((1 : ℝ) / 3) * 44102)).toNat = 14701 := by
  constructor
  · have h : ⌊(1 / (3 : ℝ)) * (([65].length : ℕ) : ℝ) * (44102 / 1000 * 1000)⌋
        = (14700 : ℤ) := by
      rw [Int.floor_eq_iff] <;> norm_num
    simp only [sineGenSamples, List.length_map, List.length_range, h]
    rfl
  · have h : round (((1 : ℝ) / 3) * 44102) = 14701 := by
      rw [round_eq]
      rw [Int.floor_eq_iff] <;> norm_num
    rw [h]
    rfl

/-- **C8 (amended).** For every message and parameters, the synthesizer's
sample buffer length is the *truncation* (floor, for the positive values in
range) of `(byteCount / bytesPerSecond) × sampleRate` — `uint32_t` cast,
not rounding to nearest. -/
theorem sineGenSamples_length (msgBytes : List ℕ) (bps levelDbfs khz : ℝ)
    (hbps : 0 < bps) (hkhz : 0 < khz) :
    (sineGenSamples msgBytes bps levelDbfs khz).length =
      (⌊(msgBytes.length : ℝ) / bps * (khz * 1000)⌋).toNat := by
  simp only [sineGenSamples, List.length_map, List.length_range]
  congr 2
  ring

/-- Witness for `sineGenSamples_length`. -/
theorem sineGenSamples_length_witness :
    (sineGenSamples [65] 1 0 1).length = (⌊(([65].length : ℕ) : ℝ) / 1 * (1 * 1000)⌋).toNat :=
  sineGenSamples_length [65] 1 0 1 (by simp) (by simp)

/-! ## Message-to-bits conversions of the synthesizers -/

/-- `binary_to_bits` of the single-tone `sine_generator.cpp`: push `false`
for '0', `true` for '1', and skip (with a console warning) anything else. -/
def binary_to_bits : List Char → List Bool
  | [] => []
  | c :: cs =>
    if c = '0' then false :: binary_to_bits cs
    else if c = '1' then true :: binary_to_bits cs
    else binary_to_bits cs

/-- `std::stoi(s, nullptr, 2)`: parse the longest prefix of base-2 digits;
an empty digit prefix raises `std::invalid_argument`, modelled as an error
(the C++ callers do not catch it, so the program aborts). -/
def stoiBin (s : List Char) : Except Unit ℕ :=
  let ds := s.takeWhile fun c => c == '0' || c == '1'
  if ds.isEmpty then Except.error ()
  else Except.ok (ds.foldl (fun n c => 2 * n + (if c = '1' then 1 else 0)) 0)

/-- `binary_to_bytes` of the multi-tone synthesizers: cut the message into
8-character groups and parse each with base-2 `std::stoi`. -/
def binary_to_bytes : List Char → Except Unit (List ℕ)
  | [] => Except.ok []
  | c :: cs => do
    let b ← stoiBin ((c :: cs).take 8)
    let rest ← binary_to_bytes (cs.drop 7)
    Except.ok (b :: rest)
termination_by s => s.length
decreasing_by
  simp only [List.length_cons, List.length_drop]
  omega

/-- **C9 (counterexample).** For the multi-tone synthesizers the claim fails:
a message whose first group starts with the non-binary character 'a' makes
`binary_to_bytes` raise an uncaught `std::invalid_argument` (an abort, not a
warning), and a non-binary character later in a group silently truncates the
group (`"0100000a"` parses as `0100000₂ = 32`) instead of being skipped. -/
theorem binary_to_bytes_not_skipping :
    binary_to_bytes ['a', '1', '0', '0', '0', '0', '0', '1'] = Except.error () ∧
      binary_to_bytes ['0', '1', '0', '0', '0', '0', '0', 'a'] = Except.ok [32] := by
  constructor
  · simp [binary_to_bytes, stoiBin]
    rfl
  · simp [binary_to_bytes, stoiBin]
    rfl

/-- **C9 (amended).** Only the single-tone synthesizer's `binary_to_bits`
ignores each non-binary character with a warning and continues with the
remaining valid bits unchanged (it returns exactly the valid characters,
mapped to their bit values); the multi-tone synthesizers' `binary_to_bytes`
instead truncates an 8-character group at the first non-binary character and
aborts if a group starts with one. -/
theorem binary_to_bits_skips_invalid :
    (∀ s : List Char,
        binary_to_bits s = (s.filter fun c => c == '0' || c == '1').map (fun c => c == '1')) ∧
      binary_to_bytes ['0', '1', '0', '0', '0', '0', '0', 'a'] = Except.ok [32] ∧
      binary_to_bytes ['a', '1', '0', '0', '0', '0', '0', '1'] = Except.error () := by
  refine ⟨?_, ?_, ?_⟩
  case refine_2 =>
    simp [binary_to_bytes, stoiBin]
    rfl
  case refine_3 =>
    simp [binary_to_bytes, stoiBin]
    rfl
  intro s
  induction s with
  | nil => rfl
  | cons c cs ih =>
    by_cases h0 : c = '0'
    · subst h0
      simp [binary_to_bits, ih]
    · by_cases h1 : c = '1'
      · subst h1
        simp [binary_to_bits, ih]
      · simp [binary_to_bits, h0, h1, ih]

/-! ## Spectral Peak Extractor (`getTop8Frequencies` of `freq_analyzer.cpp`)

`std::sort(magnitudes.begin(), magnitudes.end(), std::greater<>())` sorts the
`(magnitude, bin)` pairs by the lexicographic strict order, descending.  All
pairs carry distinct bins, so the sorted arrangement is unique and modelling
the unstable `std::sort` with `List.insertionSort` is exact. -/

/-- The non-strict lexicographic "greater or equal" order on
`(magnitude, bin)` pairs that `std::greater<>`-sorting realizes. -/
def pairGe {α : Type} [LinearOrder α] (p q : α × ℕ) : Prop :=
  q.1 < p.1 ∨ (p.1 = q.1 ∧ q.2 ≤ p.2)

instance pairGeDec {α : Type} [LinearOrder α] : DecidableRel (pairGe (α := α)) := fun p q => by
  unfold pairGe
  infer_instance

instance pairGeTotal {α : Type} [LinearOrder α] : IsTotal (α × ℕ) pairGe := by
  constructor
  intro a b
  rcases lt_trichotomy a.1 b.1 with h | h | h
  · exact Or.inr (Or.inl h)
  · rcases le_total a.2 b.2 with h2 | h2
    · exact Or.inr (Or.inr ⟨h.symm, h2⟩)
    · exact Or.inl (Or.inr ⟨h, h2⟩)
  · exact Or.inl (Or.inl h)

instance pairGeTrans {α : Type} [LinearOrder α] : IsTrans (α × ℕ) pairGe := by
  constructor
  rintro a b c (hab | ⟨hab1, hab2⟩) (hbc | ⟨hbc1, hbc2⟩)
  · exact Or.inl (hbc.trans hab)
  · exact Or.inl (hbc1 ▸ hab)
  · exact Or.inl (hab1 ▸ hbc)
  · exact Or.inr ⟨hab1.trans hbc1, hbc2.trans hab2⟩

/-- Sorting by descending (magnitude, bin) pairs, as `std::sort` with
`std::greater<>` does. -/
def sortPairsDesc {α : Type} [LinearOrder α] (l : List (α × ℕ)) : List (α × ℕ) :=
  l.insertionSort pairGe

/-- The `(magnitude, bin)` pairs for bins `1 .. N/2 − 1` (DC bin 0 excluded). -/
noncomputable def magnitudePairs (fftResult : List ℂ) (N : ℕ) : List (ℝ × ℕ) :=
  (List.range' 1 (N / 2 - 1)).map fun i => (Complex.abs (fftResult.getD i 0), i)

/-- `getTop8Frequencies` from `freq_analyzer.cpp`: keep the first 8 sorted
pairs and convert each retained bin to `bin * sampleRate / N`. -/
noncomputable def getTop8Frequencies (fftResult : List ℂ) (N : ℕ) (sampleRate : ℝ) :
    List ℝ :=
  ((sortPairsDesc (magnitudePairs fftResult N)).take 8).map
    fun p => (p.2 : ℝ) * sampleRate / (N : ℝ)

/-- Strict descending lexicographic order: larger magnitude first, and for
exactly equal magnitudes the higher bin index first. -/
def pairGt {α : Type} [LinearOrder α] (p q : α × ℕ) : Prop :=
  q.1 < p.1 ∨ (p.1 = q.1 ∧ q.2 < p.2)

/-- The bins carried by `magnitudePairs` are exactly `1 .. N/2 − 1`. -/
theorem magnitudePairs_bins (spec : List ℂ) (N : ℕ) :
    (magnitudePairs spec N).map Prod.snd = List.range' 1 (N / 2 - 1) := by
  simp [magnitudePairs, List.map_map, Function.comp_def]

/-- The sorted pair list is a permutation of the pair list. -/
theorem sortPairsDesc_perm {α : Type} [LinearOrder α] (l : List (α × ℕ)) :
    (sortPairsDesc l).Perm l :=
  List.perm_insertionSort pairGe l

/-- The sorted pair list is `pairGe`-sorted. -/
theorem sortPairsDesc_sorted {α : Type} [LinearOrder α] (l : List (α × ℕ)) :
    (sortPairsDesc l).Sorted pairGe :=
  List.sorted_insertionSort pairGe l

/-- On a list whose bins are pairwise distinct, `pairGe`-sortedness is strict
lexicographic descent. -/
theorem sortPairsDesc_pairwise_strict {α : Type} [LinearOrder α] (l : List (α × ℕ))
    (hnd : (l.map Prod.snd).Nodup) :
    (sortPairsDesc l).Pairwise pairGt := by
  have hsorted : (sortPairsDesc l).Pairwise pairGe := sortPairsDesc_sorted l
  have hnd2 : ((sortPairsDesc l).map Prod.snd).Nodup :=
    (((sortPairsDesc_perm l).map Prod.snd).nodup_iff).mpr hnd
  have hne : (sortPairsDesc l).Pairwise fun p q => p.2 ≠ q.2 :=
    (List.pairwise_map).mp hnd2
  refine (hsorted.and hne).imp ?_
  rintro a b ⟨hab | ⟨h1, h2⟩, hne2⟩
  · exact Or.inl hab
  · exact Or.inr ⟨h1, lt_of_le_of_ne h2 fun h => hne2 h.symm⟩

/-- **C5.** The peak extractor considers exactly bins `1 .. N/2 − 1` (DC
excluded); the pair list is sorted by strictly descending magnitude with
exact-tie break by descending bin index, nothing added or dropped; the output
has length `min 8 (N/2 − 1)`; and every reported frequency is
`bin * sampleRate / N` for one of the considered bins. -/
theorem getTop8Frequencies_spec (spec : List ℂ) (N : ℕ) (rate : ℝ) :
    (magnitudePairs spec N).map Prod.snd = List.range' 1 (N / 2 - 1) ∧
      (sortPairsDesc (magnitudePairs spec N)).Perm (magnitudePairs spec N) ∧
      (sortPairsDesc (magnitudePairs spec N)).Pairwise pairGt ∧
      (getTop8Frequencies spec N rate).length = min 8 (N / 2 - 1) ∧
      getTop8Frequencies spec N rate
        = ((sortPairsDesc (magnitudePairs spec N)).take 8).map
            (fun p => (p.2 : ℝ) * rate / (N : ℝ)) := by
  refine ⟨magnitudePairs_bins spec N, sortPairsDesc_perm _, ?_, ?_, rfl⟩
  · refine sortPairsDesc_pairwise_strict _ ?_
    rw [magnitudePairs_bins]
    exact List.nodup_range' _ _
  · have hlen : (sortPairsDesc (magnitudePairs spec N)).length
        = (magnitudePairs spec N).length := (sortPairsDesc_perm _).length_eq
    have hlen2 : (magnitudePairs spec N).length = N / 2 - 1 := by
      simp [magnitudePairs]
    simp [getTop8Frequencies, hlen, hlen2]

/-! ## Transform Engine (`fft` of `freq_analyzer.cpp`)

`std::polar(1.0, -2πk/N)` is `exp(iθ)` with `θ = -2πk/N`.  The in-place
`data[k] = even[k] + t; data[k + N/2] = even[k] - t;` writes positions
`0 .. 2*(N/2) - 1`; for odd `N` the final entry keeps its old value, which
the `++ data.drop (2 * (N / 2))` tail reproduces. -/

/-- `exp(θ i)` for a real angle `θ`; `std::polar(1.0, θ)`. -/
noncomputable def cexp (θ : ℝ) : ℂ := Complex.exp (θ * Complex.I)

/-- The twiddle factor `std::polar(1.0, -2 * M_PI * k / N)`. -/
noncomputable def twiddle (N k : ℕ) : ℂ := cexp (-2 * Real.pi * k / N)

/-- `even[i] = data[i * 2]` for `i < N/2`. -/
def evenList (data : List ℂ) : List ℂ :=
  (List.range (data.length / 2)).map fun i => data.getD (i * 2) 0

/-- `odd[i] = data[i * 2 + 1]` for `i < N/2`. -/
def oddList (data : List ℂ) : List ℂ :=
  (List.range (data.length / 2)).map fun i => data.getD (i * 2 + 1) 0

theorem evenList_length (data : List ℂ) : (evenList data).length = data.length / 2 := by
  simp [evenList]

theorem oddList_length (data : List ℂ) : (oddList data).length = data.length / 2 := by
  simp [oddList]

/-- The recursive Cooley-Tukey `fft` of `freq_analyzer.cpp`. -/
noncomputable def fft (data : List ℂ) : List ℂ :=
  if data.length ≤ 1 then data
  else
    let N := data.length
    let e := fft (evenList data)
    let o := fft (oddList data)
    (((List.range (N / 2)).map fun k => e.getD k 0 + twiddle N k * o.getD k 0) ++
      (List.range (N / 2)).map fun k => e.getD k 0 - twiddle N k * o.getD k 0) ++
      data.drop (2 * (N / 2))
termination_by data.length
decreasing_by
  · rw [evenList_length]
    omega
  · rw [oddList_length]
    omega

/-- `N ≤ 1` base case: the input is returned unchanged. -/
theorem fft_small {data : List ℂ} (h : data.length ≤ 1) : fft data = data := by
  rw [fft]
  simp [h]

/-- Unfolding for `N ≥ 2`. -/
theorem fft_big {data : List ℂ} (h : ¬ data.length ≤ 1) :
    fft data =
      (((List.range (data.length / 2)).map fun k =>
          (fft (evenList data)).getD k 0
            + twiddle data.length k * (fft (oddList data)).getD k 0) ++
        (List.range (data.length / 2)).map fun k =>
          (fft (evenList data)).getD k 0
            - twiddle data.length k * (fft (oddList data)).getD k 0) ++
        data.drop (2 * (data.length / 2)) := by
  rw [fft]
  simp [h]

/-- The transform preserves length, for arbitrary (also non-power-of-two)
input lengths. -/
theorem fft_length (data : List ℂ) : (fft data).length = data.length := by
  by_cases h : data.length ≤ 1
  · rw [fft_small h]
  · rw [fft_big h]
    simp only [List.length_append, List.length_map, List.length_range, List.length_drop]
    omega

/-- A fuel-indexed variant of `fft` that fails (`none`) when the recursion
depth exceeds the fuel, used to witness termination. -/
noncomputable def fftFuel : ℕ → List ℂ → Option (List ℂ)
  | fuel, data =>
    if data.length ≤ 1 then some data
    else
      match fuel with
      | 0 => none
      | fuel + 1 =>
        match fftFuel fuel (evenList data), fftFuel fuel (oddList data) with
        | some e, some o =>
          some ((((List.range (data.length / 2)).map fun k =>
              e.getD k 0 + twiddle data.length k * o.getD k 0) ++
            (List.range (data.length / 2)).map fun k =>
              e.getD k 0 - twiddle data.length k * o.getD k 0) ++
            data.drop (2 * (data.length / 2)))
        | _, _ => none

/-- With fuel at least the input length, `fftFuel` never runs out and agrees
with `fft`. -/
theorem fftFuel_complete : ∀ (fuel : ℕ) (data : List ℂ), data.length ≤ fuel + 1 →
    fftFuel fuel data = some (fft data) := by
  intro fuel
  induction fuel with
  | zero =>
    intro data h
    have h1 : data.length ≤ 1 := h
    rw [fftFuel, fft_small h1]
    simp [h1]
  | succ fuel ih =>
    intro data h
    by_cases h1 : data.length ≤ 1
    · rw [fftFuel, fft_small h1]
      simp [h1]
    · rw [fftFuel]
      simp only [h1, if_false]
      have he : (evenList data).length ≤ fuel + 1 := by
        rw [evenList_length]; omega
      have ho : (oddList data).length ≤ fuel + 1 := by
        rw [oddList_length]; omega
      rw [ih _ he, ih _ ho, fft_big h1]

/-- **C10.** The transform terminates on every finite input — also on
lengths that are not powers of two: running the recursion with fuel equal to
the input length always completes (each recursive call halves the length) and
produces `fft`'s result. -/
theorem fft_terminates (data : List ℂ) : fftFuel data.length data = some (fft data) :=
  fftFuel_complete data.length data (by omega)

/-! ## The discrete Fourier transform (specification-side), and `fft = dft` -/

theorem cexp_add (a b : ℝ) : cexp (a + b) = cexp a * cexp b := by
  rw [cexp, cexp, cexp, ← Complex.exp_add]
  congr 1
  push_cast
  ring

theorem cexp_zero : cexp 0 = 1 := by
  simp [cexp]

theorem cexp_int_mul_two_pi (m : ℤ) : cexp (2 * Real.pi * m) = 1 := by
  have h := Complex.exp_int_mul_two_pi_mul_I m
  rw [cexp]
  rw [← h]
  congr 1
  push_cast
  ring

theorem cexp_pow (θ : ℝ) (n : ℕ) : cexp θ ^ n = cexp (n * θ) := by
  rw [cexp, cexp, ← Complex.exp_nat_mul]
  congr 1
  push_cast
  ring

theorem cexp_neg_pi : cexp (-Real.pi) = -1 := by
  rw [cexp, show ((-Real.pi : ℝ) : ℂ) * Complex.I = -(Real.pi * Complex.I) by push_cast; ring,
    Complex.exp_neg, Complex.exp_pi_mul_I]
  norm_num

/-- Norm of a unit-modulus phase factor. -/
theorem abs_cexp (θ : ℝ) : Complex.abs (cexp θ) = 1 :=
  Complex.abs_exp_ofReal_mul_I θ

/-- The geometric sum of the `N`-th roots of unity indexed by an integer
frequency offset `a`: it is `N` when `N ∣ a` and `0` otherwise. -/
theorem sum_cexp_int (N : ℕ) (hN : 0 < N) (a : ℤ) :
    ∑ n ∈ Finset.range N, cexp (2 * Real.pi * a * n / N)
      = if (N : ℤ) ∣ a then (N : ℂ) else 0 := by
  by_cases hdvd : (N : ℤ) ∣ a
  · obtain ⟨m, hm⟩ := id hdvd
    have hone : ∀ n ∈ Finset.range N, cexp (2 * Real.pi * a * n / N) = 1 := by
      intro n _
      have harg : 2 * Real.pi * (a : ℝ) * n / N = 2 * Real.pi * ((m * n : ℤ) : ℝ) := by
        subst hm
        push_cast
        field_simp
        ring
      rw [harg, cexp_int_mul_two_pi]
    rw [Finset.sum_congr rfl hone]
    simp [hdvd]
  · have hr_pow : ∀ n : ℕ, cexp (2 * Real.pi * a / N) ^ n
        = cexp (2 * Real.pi * a * n / N) := by
      intro n
      rw [cexp_pow]
      congr 1
      ring
    have hr_ne : cexp (2 * Real.pi * a / N) ≠ 1 := by
      intro hone
      rw [cexp, Complex.exp_eq_one_iff] at hone
      obtain ⟨m, hm⟩ := hone
      have hI : ((2 * Real.pi * a / N : ℝ) : ℂ) = ((m * (2 * Real.pi) : ℝ) : ℂ) := by
        have h2 : ((m : ℂ) * (2 * (Real.pi : ℂ) * Complex.I))
            = ((m * (2 * Real.pi) : ℝ) : ℂ) * Complex.I := by
          push_cast
          ring
        rw [h2] at hm
        exact mul_right_cancel₀ Complex.I_ne_zero hm
      have hreal : 2 * Real.pi * a / N = m * (2 * Real.pi) :=
        Complex.ofReal_inj.mp hI
      have hNne : (N : ℝ) ≠ 0 := Nat.cast_ne_zero.mpr hN.ne'
      have h2pi : (2 * Real.pi) ≠ 0 := by positivity
      field_simp at hreal
      have ha : (a : ℝ) = (m : ℝ) * N :=
        mul_left_cancel₀ h2pi (hreal.trans (by ring))
      have hz : a = m * N := by
        exact_mod_cast ha
      exact hdvd ⟨m, by rw [hz]; ring⟩
    have hrN : cexp (2 * Real.pi * a / N) ^ N = 1 := by
      rw [hr_pow]
      have harg : 2 * Real.pi * (a : ℝ) * N / N = 2 * Real.pi * a := by
        field_simp
      rw [harg, cexp_int_mul_two_pi]
    rw [Finset.sum_congr rfl fun n _ => (hr_pow n).symm, geom_sum_eq hr_ne, hrN]
    simp [hdvd]

/-- The reference discrete Fourier transform coefficient
`X_k = ∑_n x_n · exp(-2πi·k·n/N)`. -/
noncomputable def dftCoeff (x : List ℂ) (k : ℕ) : ℂ :=
  ∑ n ∈ Finset.range x.length, x.getD n 0 * cexp (-2 * Real.pi * (k * n) / x.length)

/-- The reference discrete Fourier transform. -/
noncomputable def dft (x : List ℂ) : List ℂ :=
  (List.range x.length).map (dftCoeff x)

theorem dft_length (x : List ℂ) : (dft x).length = x.length := by
  simp [dft]

theorem getD_map_range {β : Type} (n k : ℕ) (f : ℕ → β) (d : β) (hk : k < n) :
    ((List.range n).map f).getD k d = f k := by
  rw [List.getD_eq_getElem?_getD, List.getElem?_map, List.getElem?_range hk]
  rfl

theorem dft_getD (x : List ℂ) (k : ℕ) (hk : k < x.length) :
    (dft x).getD k 0 = dftCoeff x k :=
  getD_map_range _ _ _ _ hk

theorem evenList_getD (data : List ℂ) (j : ℕ) (hj : j < data.length / 2) :
    (evenList data).getD j 0 = data.getD (j * 2) 0 :=
  getD_map_range _ _ _ _ hj

theorem oddList_getD (data : List ℂ) (j : ℕ) (hj : j < data.length / 2) :
    (oddList data).getD j 0 = data.getD (j * 2 + 1) 0 :=
  getD_map_range _ _ _ _ hj

/-- Butterfly identity, first half: for input of even length `2m`,
`X_k = E_k + w_N^k · O_k` where `E`/`O` are the half-length transforms. -/
theorem dftCoeff_split_low (x : List ℂ) (m : ℕ) (hm : 0 < m)
    (hx : x.length = 2 * m) (k : ℕ) :
    dftCoeff x k
      = dftCoeff (evenList x) k + twiddle x.length k * dftCoeff (oddList x) k := by
  have hmne : (m : ℝ) ≠ 0 := Nat.cast_ne_zero.mpr hm.ne'
  have hle : (evenList x).length = m := by rw [evenList_length, hx]; omega
  have hlo : (oddList x).length = m := by rw [oddList_length, hx]; omega
  rw [dftCoeff, hx, sum_range_even_odd m
    (fun n => x.getD n 0 * cexp (-2 * Real.pi * ((k : ℝ) * n) / ((2 * m : ℕ) : ℝ)))]
  rw [dftCoeff, dftCoeff, hle, hlo]
  congr 1
  · apply Finset.sum_congr rfl
    intro j hj
    have hjm : j < m := Finset.mem_range.mp hj
    have hjm2 : j < x.length / 2 := by omega
    rw [evenList_getD x j hjm2, mul_comm j 2]
    push_cast
    congr 2
    field_simp
    ring
  · rw [Finset.mul_sum]
    apply Finset.sum_congr rfl
    intro j hj
    have hjm : j < m := Finset.mem_range.mp hj
    have hjm2 : j < x.length / 2 := by omega
    rw [oddList_getD x j hjm2, mul_comm j 2]
    have hsplit : twiddle (2 * m) k * (x.getD (2 * j + 1) 0
          * cexp (-2 * Real.pi * ((k : ℝ) * j) / m))
        = x.getD (2 * j + 1) 0
          * cexp (-2 * Real.pi * (k : ℝ) / ((2 * m : ℕ) : ℝ)
              + -2 * Real.pi * ((k : ℝ) * j) / m) := by
      rw [cexp_add, twiddle]
      ring
    rw [hsplit]
    push_cast
    congr 2
    field_simp
    ring

/-- Butterfly identity, second half: `X_{m+k} = E_k − w_N^k · O_k`. -/
theorem dftCoeff_split_high (x : List ℂ) (m : ℕ) (hm : 0 < m)
    (hx : x.length = 2 * m) (k : ℕ) :
    dftCoeff x (m + k)
      = dftCoeff (evenList x) k - twiddle x.length k * dftCoeff (oddList x) k := by
  have hmne : (m : ℝ) ≠ 0 := Nat.cast_ne_zero.mpr hm.ne'
  have hle : (evenList x).length = m := by rw [evenList_length, hx]; omega
  have hlo : (oddList x).length = m := by rw [oddList_length, hx]; omega
  rw [dftCoeff, hx, sum_range_even_odd m
    (fun n => x.getD n 0 * cexp (-2 * Real.pi * (((m + k : ℕ) : ℝ) * n) / ((2 * m : ℕ) : ℝ)))]
  rw [dftCoeff, dftCoeff, hle, hlo, sub_eq_add_neg]
  congr 1
  · apply Finset.sum_congr rfl
    intro j hj
    have hjm : j < m := Finset.mem_range.mp hj
    have hjm2 : j < x.length / 2 := by omega
    rw [evenList_getD x j hjm2, mul_comm j 2]
    have hphase : cexp (-2 * Real.pi * (((m + k : ℕ) : ℝ) * ((2 * j : ℕ) : ℝ))
          / ((2 * m : ℕ) : ℝ))
        = cexp (-2 * Real.pi * ((k : ℝ) * j) / m) := by
      rw [show -2 * Real.pi * (((m + k : ℕ) : ℝ) * ((2 * j : ℕ) : ℝ)) / ((2 * m : ℕ) : ℝ)
          = -2 * Real.pi * ((k : ℝ) * j) / m + 2 * Real.pi * (((-(j : ℤ)) : ℤ) : ℝ) from by
        push_cast
        field_simp
        ring]
      rw [cexp_add, cexp_int_mul_two_pi, mul_one]
    push_cast at hphase ⊢
    rw [hphase]
  · rw [neg_mul_eq_mul_neg, mul_neg, Finset.mul_sum, ← Finset.sum_neg_distrib]
    apply Finset.sum_congr rfl
    intro j hj
    have hjm : j < m := Finset.mem_range.mp hj
    have hjm2 : j < x.length / 2 := by omega
    rw [oddList_getD x j hjm2, mul_comm j 2]
    have hphase : cexp (-2 * Real.pi * (((m + k : ℕ) : ℝ) * ((2 * j + 1 : ℕ) : ℝ))
          / ((2 * m : ℕ) : ℝ))
        = -(cexp (-2 * Real.pi * (k : ℝ) / ((2 * m : ℕ) : ℝ))
            * cexp (-2 * Real.pi * ((k : ℝ) * j) / m)) := by
      rw [show -2 * Real.pi * (((m + k : ℕ) : ℝ) * ((2 * j + 1 : ℕ) : ℝ)) / ((2 * m : ℕ) : ℝ)
          = ((-2 * Real.pi * (k : ℝ) / ((2 * m : ℕ) : ℝ)
              + -2 * Real.pi * ((k : ℝ) * j) / m) + (-Real.pi))
            + 2 * Real.pi * (((-(j : ℤ)) : ℤ) : ℝ) from by
        push_cast
        field_simp
        ring]
      rw [cexp_add, cexp_int_mul_two_pi, mul_one, cexp_add, cexp_neg_pi, cexp_add]
      ring
    push_cast at hphase ⊢
    rw [hphase, twiddle]
    push_cast
    ring

theorem dft_small {x : List ℂ} (h : x.length ≤ 1) : dft x = x := by
  match x, h with
  | [], _ => rfl
  | [a], _ =>
    show [dftCoeff [a] 0] = [a]
    simp [dftCoeff, cexp_zero]

/-- The recursive Cooley-Tukey `fft` computes the discrete Fourier transform
on every power-of-two input length. -/
theorem fft_eq_dft : ∀ (s : ℕ) (x : List ℂ), x.length = 2 ^ s → fft x = dft x := by
  intro s
  induction s with
  | zero =>
    intro x hx
    have h1 : x.length ≤ 1 := by rw [hx]; norm_num
    rw [fft_small h1, dft_small h1]
  | succ s ih =>
    intro x hx
    have hm : 0 < 2 ^ s := Nat.pos_pow_of_pos s (by norm_num)
    have hxlen : x.length = 2 * 2 ^ s := by rw [hx]; ring
    have h1 : ¬ x.length ≤ 1 := by rw [hxlen]; omega
    rw [fft_big h1]
    have hle : (evenList x).length = 2 ^ s := by rw [evenList_length, hxlen]; omega
    have hlo : (oddList x).length = 2 ^ s := by rw [oddList_length, hxlen]; omega
    rw [ih _ hle, ih _ hlo]
    have hhalf : x.length / 2 = 2 ^ s := by rw [hxlen]; omega
    have hdrop : x.drop (2 * (x.length / 2)) = [] := by
      rw [hhalf, show 2 * 2 ^ s = x.length from hxlen.symm]
      exact List.drop_length x
    rw [hdrop, List.append_nil, hhalf]
    have hsplit : dft x = (List.range (2 ^ s)).map (dftCoeff x)
        ++ (List.range (2 ^ s)).map (dftCoeff x ∘ (2 ^ s + ·)) := by
      rw [dft, hxlen, show 2 * 2 ^ s = 2 ^ s + 2 ^ s from by ring, List.range_add,
        List.map_append, List.map_map]
    rw [hsplit]
    congr 1
    · apply List.map_congr_left
      intro k hk
      have hkm : k < 2 ^ s := List.mem_range.mp hk
      rw [dft_getD _ _ (by omega : k < (evenList x).length),
        dft_getD _ _ (by omega : k < (oddList x).length),
        (dftCoeff_split_low x (2 ^ s) hm hxlen k).symm]
    · apply List.map_congr_left
      intro k hk
      have hkm : k < 2 ^ s := List.mem_range.mp hk
      rw [dft_getD _ _ (by omega : k < (evenList x).length),
        dft_getD _ _ (by omega : k < (oddList x).length)]
      show _ = dftCoeff x (2 ^ s + k)
      rw [(dftCoeff_split_high x (2 ^ s) hm hxlen k).symm]

theorem cexp_conj (θ : ℝ) : (starRingEnd ℂ) (cexp θ) = cexp (-θ) := by
  rw [cexp, cexp, ← Complex.exp_conj]
  congr 1
  simp only [map_mul, Complex.conj_ofReal, Complex.conj_I]
  push_cast
  ring

theorem getD_mem {x : List ℂ} {n : ℕ} (hn : n < x.length) : x.getD n 0 ∈ x := by
  rw [List.getD_eq_getElem x 0 hn]
  exact x.getElem_mem hn

/-- Conjugate-mirror symmetry of the DFT of a real-valued sequence. -/
theorem dftCoeff_conj_mirror (x : List ℂ) (hreal : ∀ z ∈ x, z.im = 0) (k : ℕ)
    (hk1 : 1 ≤ k) (hkN : k < x.length) :
    dftCoeff x (x.length - k) = (starRingEnd ℂ) (dftCoeff x k) := by
  have hN : 0 < x.length := lt_of_le_of_lt (Nat.zero_le k) hkN
  have hNne : ((x.length : ℕ) : ℝ) ≠ 0 := Nat.cast_ne_zero.mpr hN.ne'
  rw [dftCoeff, dftCoeff, map_sum]
  apply Finset.sum_congr rfl
  intro n hn
  have hnN : n < x.length := Finset.mem_range.mp hn
  rw [map_mul, cexp_conj]
  have hxn : (starRingEnd ℂ) (x.getD n 0) = x.getD n 0 :=
    Complex.conj_eq_iff_im.mpr (hreal _ (getD_mem hnN))
  rw [hxn]
  congr 1
  rw [show -(-2 * Real.pi * ((k : ℝ) * n) / x.length)
      = 2 * Real.pi * ((k : ℝ) * n) / x.length from by ring]
  rw [show -2 * Real.pi * (((x.length - k : ℕ) : ℝ) * n) / x.length
      = 2 * Real.pi * ((k : ℝ) * n) / x.length + 2 * Real.pi * (((-(n : ℤ)) : ℤ) : ℝ) from by
    rw [Nat.cast_sub hkN.le]
    push_cast
    field_simp
    ring]
  rw [cexp_add, cexp_int_mul_two_pi, mul_one]

/-- **C7.** The transform preserves the length of its input for every input;
for length at most 1 it returns the input unchanged; and on real-valued input
of power-of-two length, output bin `N − k` is the complex conjugate of output
bin `k` for `1 ≤ k < N`. -/
theorem fft_length_id_mirror :
    (∀ data : List ℂ, (fft data).length = data.length) ∧
      (∀ data : List ℂ, data.length ≤ 1 → fft data = data) ∧
      (∀ (data : List ℂ) (s : ℕ), data.length = 2 ^ s → (∀ z ∈ data, z.im = 0) →
        ∀ k, 1 ≤ k → k < data.length →
          (fft data).getD (data.length - k) 0
            = (starRingEnd ℂ) ((fft data).getD k 0)) := by
  refine ⟨fft_length, fun _ h => fft_small h, ?_⟩
  intro data s hlen hreal k hk1 hkN
  rw [fft_eq_dft s data hlen]
  rw [dft_getD _ _ (by omega), dft_getD _ _ hkN]
  exact dftCoeff_conj_mirror data hreal k hk1 hkN

/-- Witness for `fft_length_id_mirror` at the real input `[1, 2, 3, 4]`,
exercising the mirror symmetry between bins 3 and 1. -/
theorem fft_length_id_mirror_witness :
    (fft [((1 : ℝ) : ℂ), ((2 : ℝ) : ℂ), ((3 : ℝ) : ℂ), ((4 : ℝ) : ℂ)]).getD
        ([((1 : ℝ) : ℂ), ((2 : ℝ) : ℂ), ((3 : ℝ) : ℂ), ((4 : ℝ) : ℂ)].length - 1) 0
      = (starRingEnd ℂ)
          ((fft [((1 : ℝ) : ℂ), ((2 : ℝ) : ℂ), ((3 : ℝ) : ℂ), ((4 : ℝ) : ℂ)]).getD 1 0) :=
  fft_length_id_mirror.2.2 [((1 : ℝ) : ℂ), ((2 : ℝ) : ℂ), ((3 : ℝ) : ℂ), ((4 : ℝ) : ℂ)] 2
    rfl (by simp) 1 (by decide) (by decide)

/-! ## Tolerance behavior of the Bit Classifier -/

/-- Low (bit value 0) table entry for position `i`. -/
def tableLo (i : ℕ) : ℚ := ((bitFrequencyPairs (K := ℚ)).getD i (0, 0)).1

/-- High (bit value 1) table entry for position `i`. -/
def tableHi (i : ℕ) : ℚ := ((bitFrequencyPairs (K := ℚ)).getD i (0, 0)).2

/-- Each table row has its high entry 200 Hz above its low entry. -/
theorem tableHi_eq_lo_add (i : ℕ) (h : i < 8) : tableHi i = tableLo i + 200 := by
  interval_cases i <;> norm_num [tableLo, tableHi, bitFrequencyPairs]

/-- A frequency out of tolerance of both candidates leaves the scan state
unchanged, whatever that state is. -/
theorem scanFreq_far {K : Type} [LinearOrderedField K] (lo hi f : K)
    (s : Bool × Bool × K × K) (h0 : ¬(|f - lo| < 50)) (h1 : ¬(|f - hi| < 50)) :
    scanFreq lo hi f s = s := by
  simp only [scanFreq]
  rw [if_neg (fun h => h1 h.1), if_neg (fun h => h0 h.1)]

theorem foldl_scanFreq_far {K : Type} [LinearOrderedField K] (lo hi : K) :
    ∀ (fs : List K) (s : Bool × Bool × K × K),
      (∀ f ∈ fs, ¬(|f - lo| < 50) ∧ ¬(|f - hi| < 50)) →
        fs.foldl (fun s f => scanFreq lo hi f s) s = s := by
  intro fs
  induction fs with
  | nil => intro s _; rfl
  | cons g gs ih =>
    intro s hfar
    have hg := hfar g (List.mem_cons_self g gs)
    rw [List.foldl_cons, scanFreq_far lo hi g s hg.1 hg.2]
    exact ih s fun f hf => hfar f (List.mem_cons_of_mem g hf)

/-- With no frequency in tolerance, the bit resolves to 0 and no frequency is
recorded. -/
theorem classifyBit_far {K : Type} [LinearOrderedField K] (lo hi : K) (fs : List K)
    (hfar : ∀ f ∈ fs, ¬(|f - lo| < 50) ∧ ¬(|f - hi| < 50)) :
    classifyBit lo hi fs = (false, 0) := by
  unfold classifyBit
  rw [foldl_scanFreq_far lo hi fs _ hfar]

/-- **C3.** Strict tolerance boundary of the classifier, on each table row:
(1) when every detected frequency is at least 50 Hz from both candidates the
bit resolves to 0 with no matched frequency; (2)-(3) a frequency exactly
50 Hz from the high (resp. low) entry is not accepted as a match for it;
(4)-(5) a frequency 49.9 Hz from the high (resp. low) entry is accepted,
resolving the bit to 1 (resp. 0) with that frequency recorded. -/
theorem classifyBit_tolerance :
    (∀ i, i < 8 → ∀ fs : List ℚ,
        (∀ f ∈ fs, ¬(|f - tableLo i| < 50) ∧ ¬(|f - tableHi i| < 50)) →
          classifyBit (tableLo i) (tableHi i) fs = (false, 0)) ∧
      (∀ i, i < 8 → ∀ f : ℚ, f = tableHi i + 50 ∨ f = tableHi i - 50 →
        classifyBit (tableLo i) (tableHi i) [f] = (false, 0)) ∧
      (∀ i, i < 8 → ∀ f : ℚ, f = tableLo i + 50 ∨ f = tableLo i - 50 →
        classifyBit (tableLo i) (tableHi i) [f] = (false, 0)) ∧
      (∀ i, i < 8 →
        classifyBit (tableLo i) (tableHi i) [tableHi i + 499 / 10]
          = (true, tableHi i + 499 / 10)) ∧
      (∀ i, i < 8 →
        classifyBit (tableLo i) (tableHi i) [tableLo i + 499 / 10]
          = (false, tableLo i + 499 / 10)) := by
  refine ⟨?_, ?_, ?_, ?_, ?_⟩
  · intro i _ fs hfar
    exact classifyBit_far _ _ fs hfar
  · intro i h8 f hf
    have hrel := tableHi_eq_lo_add i h8
    apply classifyBit_far
    intro g hg
    rw [List.mem_singleton] at hg
    subst hg
    rcases hf with rfl | rfl <;> rw [hrel] <;> constructor
    · rw [show tableLo i + 200 + 50 - tableLo i = (250 : ℚ) from by ring]
      norm_num [abs]
    · rw [show tableLo i + 200 + 50 - (tableLo i + 200) = (50 : ℚ) from by ring]
      norm_num [abs]
    · rw [show tableLo i + 200 - 50 - tableLo i = (150 : ℚ) from by ring]
      norm_num [abs]
    · rw [show tableLo i + 200 - 50 - (tableLo i + 200) = (-50 : ℚ) from by ring]
      norm_num [abs]
  · intro i h8 f hf
    have hrel := tableHi_eq_lo_add i h8
    apply classifyBit_far
    intro g hg
    rw [List.mem_singleton] at hg
    subst hg
    rcases hf with rfl | rfl <;> rw [hrel] <;> constructor
    · rw [show tableLo i + 50 - tableLo i = (50 : ℚ) from by ring]
      norm_num [abs]
    · rw [show tableLo i + 50 - (tableLo i + 200) = (-150 : ℚ) from by ring]
      norm_num [abs]
    · rw [show tableLo i - 50 - tableLo i = (-50 : ℚ) from by ring]
      norm_num [abs]
    · rw [show tableLo i - 50 - (tableLo i + 200) = (-250 : ℚ) from by ring]
      norm_num [abs]
  · intro i h8
    interval_cases i <;>
      norm_num [classifyBit, scanFreq, tableLo, tableHi, bitFrequencyPairs, abs]
  · intro i h8
    interval_cases i <;>
      norm_num [classifyBit, scanFreq, tableLo, tableHi, bitFrequencyPairs, abs]

/-- Witness for `classifyBit_tolerance`: on table row 0, the frequency 550 Hz
(exactly 50 from the high entry 500) is rejected. -/
theorem classifyBit_tolerance_witness :
    classifyBit (tableLo 0) (tableHi 0) [tableHi 0 + 50] = (false, 0) :=
  classifyBit_tolerance.2.1 0 (by decide) (tableHi 0 + 50) (Or.inl rfl)

/-! ## Chunked Session Loop (decode driver, `main` of `freq_analyzer.cpp`) -/

/-- `std::fill(buffer.begin() + readSamples, buffer.end(), 0)`. -/
def padZero (buf : List ℝ) (readSamples : ℕ) : List ℝ :=
  buf.take readSamples ++ List.replicate (buf.length - readSamples) 0

/-- One window's decode: zero-pad, down-mix if multi-channel, convert the
first `CHUNK_SIZE = 44100` entries to complex, transform, extract peaks,
classify. -/
noncomputable def decodeWindow (numChannels : ℕ) (sampleRate : ℝ) (buf : List ℝ)
    (readSamples : ℕ) : ℕ :=
  let buf1 := padZero buf readSamples
  let buf2 := if 1 < numChannels then downmix numChannels readSamples buf1 else buf1
  let fftInput := (List.range 44100).map fun i => ((buf2.getD i 0 : ℝ) : ℂ)
  frequenciesToByte (getTop8Frequencies (fft fftInput) 44100 sampleRate)

/-- One cycle of the session loop: a chunk is the buffer contents paired with
the frame count returned by the read; counts below `MIN_SAMPLES = 44000` are
skipped (`continue`), otherwise exactly one decoded byte is appended. -/
noncomputable def sessionStep (numChannels : ℕ) (sampleRate : ℝ) (msg : List ℕ)
    (chunk : List ℝ × ℕ) : List ℕ :=
  if chunk.2 < 44000 then msg
  else msg ++ [decodeWindow numChannels sampleRate chunk.1 chunk.2]

/-- The whole decode run over the successive chunks of the audio source. -/
noncomputable def sessionRun (numChannels : ℕ) (sampleRate : ℝ) (msg : List ℕ)
    (chunks : List (List ℝ × ℕ)) : List ℕ :=
  chunks.foldl (sessionStep numChannels sampleRate) msg

/-- Every step extends the message by zero or one byte. -/
theorem sessionStep_extends (nc : ℕ) (sr : ℝ) (msg : List ℕ) (chunk : List ℝ × ℕ) :
    ∃ u : List ℕ, sessionStep nc sr msg chunk = msg ++ u := by
  by_cases h : chunk.2 < 44000
  · exact ⟨[], by simp [sessionStep, h]⟩
  · exact ⟨[decodeWindow nc sr chunk.1 chunk.2], by simp [sessionStep, h]⟩

/-- **C6.** Tail-drop and append-only message law of the session loop: a
cycle whose read count is below 44000 leaves the message completely
unchanged, whatever the window holds; otherwise exactly one decoded byte is
appended; and over any run the initial message stays a prefix —
the message is append-only. -/
theorem sessionLoop_message_law :
    (∀ (nc : ℕ) (sr : ℝ) (msg : List ℕ) (chunk : List ℝ × ℕ),
        chunk.2 < 44000 → sessionStep nc sr msg chunk = msg) ∧
      (∀ (nc : ℕ) (sr : ℝ) (msg : List ℕ) (chunk : List ℝ × ℕ),
        44000 ≤ chunk.2 →
          ∃ b : ℕ, sessionStep nc sr msg chunk = msg ++ [b]) ∧
      (∀ (nc : ℕ) (sr : ℝ) (msg : List ℕ) (chunks : List (List ℝ × ℕ)),
        ∃ t : List ℕ, sessionRun nc sr msg chunks = msg ++ t) := by
  refine ⟨?_, ?_, ?_⟩
  · intro nc sr msg chunk h
    simp [sessionStep, h]
  · intro nc sr msg chunk h
    exact ⟨decodeWindow nc sr chunk.1 chunk.2, by simp [sessionStep, not_lt.mpr h]⟩
  · intro nc sr msg chunks
    induction chunks generalizing msg with
    | nil => exact ⟨[], by simp [sessionRun]⟩
    | cons c cs ih =>
      obtain ⟨u, hu⟩ := sessionStep_extends nc sr msg c
      obtain ⟨t, ht⟩ := ih (msg ++ u)
      refine ⟨u ++ t, ?_⟩
      rw [sessionRun, List.foldl_cons, hu]
      rw [sessionRun] at ht
      rw [ht, List.append_assoc]

/-- Witness for `sessionLoop_message_law`: a 10-frame tail chunk is dropped. -/
theorem sessionLoop_message_law_witness :
    sessionStep 1 44100 [65] ([(0 : ℝ)], 10) = [65] :=
  sessionLoop_message_law.1 1 44100 [65] ([(0 : ℝ)], 10) (by decide)

/-! ## Round trip: multi-tone synthesis followed by FFT analysis

The agreed configuration: sample rate 8192 Hz (8.192 kHz), one byte per
second, 0 dBFS, so one symbol window is 8192 = 2¹³ samples — a window length
satisfying the Transform Engine's power-of-two precondition — and analyzer
bin `k` sits at exactly `k` Hz. -/

/-- The bin (= frequency in Hz at the 8192 Hz / 8192-sample configuration)
carrying table position `j` of byte `b`: the high entry when bit `7 − j` of
`b` is set (MSB-first selection of the encoder), the low entry otherwise. -/
def toneNat (j b : ℕ) : ℕ :=
  if (b >>> (7 - j)) &&& 1 = 1 then 400 * j + 500 else 400 * j + 300

/-- The eight tone bins of byte `b`, in table order. -/
def toneBinsList (b : ℕ) : List ℕ :=
  (List.range 8).map fun j => toneNat j b

/-- The eight tone frequencies of byte `b` as reals. -/
noncomputable def toneFreqList (b : ℕ) : List ℝ :=
  (List.range 8).map fun j => ((toneNat j b : ℕ) : ℝ)

theorem toneNat_bounds (j b : ℕ) (hj : j < 8) :
    300 ≤ toneNat j b ∧ toneNat j b ≤ 3300 := by
  unfold toneNat
  split <;> omega

theorem toneNat_injective (b : ℕ) {j j' : ℕ} (h : toneNat j b = toneNat j' b) : j = j' := by
  unfold toneNat at h
  split at h <;> split at h <;> omega

theorem toneBinsList_nodup (b : ℕ) : (toneBinsList b).Nodup :=
  (List.nodup_range 8).map_on fun _ _ _ _ h => toneNat_injective b h

theorem toneFreqList_eq_map (b : ℕ) :
    toneFreqList b = (toneBinsList b).map fun i => ((i : ℕ) : ℝ) := by
  simp [toneFreqList, toneBinsList, List.map_map]

theorem toneFreqList_nodup (b : ℕ) : (toneFreqList b).Nodup := by
  rw [toneFreqList_eq_map]
  exact (toneBinsList_nodup b).map_on fun _ _ _ _ h => Nat.cast_injective h

/-- The decoder table rows, in closed form. -/
theorem bitFrequencyPairs_getD (i : ℕ) (hi : i < 8) :
    (bitFrequencyPairs (K := ℝ)).getD i (0, 0)
      = (((400 * i + 300 : ℕ) : ℝ), ((400 * i + 500 : ℕ) : ℝ)) := by
  interval_cases i <;> norm_num [bitFrequencyPairs]

/-- The encoder table rows, in closed form. -/
theorem freq_table_getD (i : ℕ) (hi : i < 8) :
    (freq_table (K := ℝ)).getD i (0, 0)
      = (((400 * i + 300 : ℕ) : ℝ), ((400 * i + 500 : ℕ) : ℝ)) := by
  interval_cases i <;> norm_num [freq_table]

/-- The encoder's MSB-first tone selection equals `toneNat`. -/
theorem encoder_tone_eq (bit b : ℕ) (hbit : bit < 8) :
    (if (b >>> (7 - bit)) &&& 1 = 1
        then ((freq_table (K := ℝ)).getD bit (0, 0)).2
        else ((freq_table (K := ℝ)).getD bit (0, 0)).1)
      = ((toneNat bit b : ℕ) : ℝ) := by
  rw [freq_table_getD bit hbit, toneNat]
  split <;> simp

/-- A tone of a different table position is at least 50 Hz away from both
candidates of position `i` (in fact at least 200 Hz). -/
theorem tone_far (b i j : ℕ) (hi : i < 8) (hj : j < 8) (hne : j ≠ i) :
    ¬(|((toneNat j b : ℕ) : ℝ) - ((400 * i + 300 : ℕ) : ℝ)| < 50) ∧
      ¬(|((toneNat j b : ℕ) : ℝ) - ((400 * i + 500 : ℕ) : ℝ)| < 50) := by
  have key : ∀ c : ℕ, ((toneNat j b : ℤ) - (400 * i + c : ℕ) ≥ 50
      ∨ (toneNat j b : ℤ) - (400 * i + c : ℕ) ≤ -50)
      → ¬(|((toneNat j b : ℕ) : ℝ) - ((400 * i + c : ℕ) : ℝ)| < 50) := by
    intro c hc
    have hcast : ((toneNat j b : ℕ) : ℝ) - ((400 * i + c : ℕ) : ℝ)
        = (((toneNat j b : ℤ) - (400 * i + c : ℕ) : ℤ) : ℝ) := by
      push_cast
      ring
    rw [hcast, not_lt]
    rcases hc with hc | hc
    · calc (50 : ℝ) ≤ (((toneNat j b : ℤ) - (400 * i + c : ℕ) : ℤ) : ℝ) := by
            exact_mod_cast hc
        _ ≤ |(((toneNat j b : ℤ) - (400 * i + c : ℕ) : ℤ) : ℝ)| := le_abs_self _
    · calc (50 : ℝ) ≤ -(((toneNat j b : ℤ) - (400 * i + c : ℕ) : ℤ) : ℝ) := by
            have : (((toneNat j b : ℤ) - (400 * i + c : ℕ) : ℤ) : ℝ) ≤ -50 := by
              exact_mod_cast hc
            linarith
        _ ≤ |(((toneNat j b : ℤ) - (400 * i + c : ℕ) : ℤ) : ℝ)| := neg_le_abs _
  constructor
  · apply key
    unfold toneNat
    split <;> push_cast <;> omega
  · apply key
    unfold toneNat
    split <;> push_cast <;> omega

/-- The exact (pre-quantization) sample value of the one-byte message `[b]`
at the agreed 8192 Hz configuration. -/
noncomputable def synthY (b n : ℕ) : ℝ :=
  (∑ bit ∈ Finset.range 8,
      Real.sin (2 * Real.pi * ((toneNat bit b : ℕ) : ℝ) * ((n : ℝ) / 8192))) / 8 * 32767

/-- `sine_gen` on the one-byte message at 1 byte/s, 0 dBFS, 8.192 kHz:
8192 samples, each the truncation of `synthY`. -/
theorem sineGenSamples_byte (b : ℕ) :
    sineGenSamples [b] 1 0 (8192 / 1000)
      = (List.range 8192).map fun n => i16trunc (synthY b n) := by
  simp only [sineGenSamples]
  have hsr : (8192 / 1000 : ℝ) * 1000 = 8192 := by norm_num
  have hns : (⌊(1 : ℝ) / 1 * (([b].length : ℕ) : ℝ) * (8192 / 1000 * 1000)⌋).toNat = 8192 := by
    rw [show (1 : ℝ) / 1 * (([b].length : ℕ) : ℝ) * (8192 / 1000 * 1000) = ((8192 : ℕ) : ℝ)
      from by push_cast; norm_num]
    rw [Int.floor_natCast]
    rfl
  rw [hns]
  apply List.map_congr_left
  intro n hn
  have hn8 : n < 8192 := List.mem_range.mp hn
  have ht : (n : ℝ) / (8192 / 1000 * 1000) = (n : ℝ) / 8192 := by rw [hsr]
  have hfloor : (⌊(n : ℝ) / 8192 / (1 / 1)⌋).toNat = 0 := by
    rw [show (n : ℝ) / 8192 / (1 / 1) = (n : ℝ) / 8192 by norm_num]
    have h0 : (0 : ℝ) ≤ (n : ℝ) / 8192 := by positivity
    have h1 : (n : ℝ) / 8192 < 1 := by
      rw [div_lt_one (by norm_num)]
      exact_mod_cast hn8
    rw [Int.floor_eq_zero_iff.mpr ⟨h0, h1⟩]
    rfl
  rw [ht, hfloor]
  have hidx : (if [b].length ≤ 0 then [b].length - 1 else 0) = 0 := by
    norm_num
  rw [hidx]
  have hamp : (10 : ℝ) ^ ((0 : ℝ) / 20) = 1 := by
    rw [zero_div, Real.rpow_zero]
  rw [hamp]
  have hsum : (∑ bit ∈ Finset.range 8,
        Real.sin (2 * Real.pi *
          (if (([b].getD 0 0) >>> (7 - bit)) &&& 1 = 1
            then ((freq_table (K := ℝ)).getD bit (0, 0)).2
            else ((freq_table (K := ℝ)).getD bit (0, 0)).1) * ((n : ℝ) / 8192)))
      = ∑ bit ∈ Finset.range 8,
          Real.sin (2 * Real.pi * ((toneNat bit b : ℕ) : ℝ) * ((n : ℝ) / 8192)) := by
    apply Finset.sum_congr rfl
    intro bit hbit
    rw [show ([b].getD 0 0) = b from rfl, encoder_tone_eq bit b (Finset.mem_range.mp hbit)]
  rw [hsum, synthY, mul_one]

/-- The window fed to the analyzer: the synthesized samples as complex
numbers (`fftInput[i] = Complex(buffer[i], 0.0)`). -/
noncomputable def windowOf (b : ℕ) : List ℂ :=
  (sineGenSamples [b] 1 0 (8192 / 1000)).map fun (v : ℤ) => ((v : ℝ) : ℂ)

theorem windowOf_eq (b : ℕ) :
    windowOf b
      = (List.range 8192).map fun n => (((i16trunc (synthY b n) : ℤ) : ℝ) : ℂ) := by
  rw [windowOf, sineGenSamples_byte, List.map_map]
  rfl

theorem windowOf_length (b : ℕ) : (windowOf b).length = 8192 := by
  rw [windowOf_eq]
  simp

/-- Quantization error of one sample. -/
noncomputable def errOf (b n : ℕ) : ℝ := ((i16trunc (synthY b n) : ℤ) : ℝ) - synthY b n

/-- Truncation toward zero moves a value by less than one. -/
theorem i16trunc_err_le (y : ℝ) : |((i16trunc y : ℤ) : ℝ) - y| ≤ 1 := by
  unfold i16trunc
  split
  · rw [abs_le]
    constructor
    · have := Int.sub_one_lt_floor y
      push_cast at this ⊢
      linarith
    · have := Int.floor_le y
      push_cast at this ⊢
      linarith
  · rw [abs_le]
    constructor
    · have := Int.le_ceil y
      push_cast at this ⊢
      linarith
    · have := Int.ceil_lt_add_one y
      push_cast at this ⊢
      linarith

/-- The DFT of one unit-amplitude sampled sinusoid of integer frequency `f`
against analysis bin `k`, over the 8192-sample window. -/
noncomputable def sinSum (f k : ℕ) : ℂ :=
  ∑ n ∈ Finset.range 8192,
    ((Real.sin (2 * Real.pi * (f : ℝ) * ((n : ℝ) / 8192)) : ℝ) : ℂ)
      * cexp (-2 * Real.pi * ((k : ℝ) * (n : ℝ)) / 8192)

theorem dftCoeff_windowOf (b k : ℕ) :
    dftCoeff (windowOf b) k
      = ∑ n ∈ Finset.range 8192,
          (((i16trunc (synthY b n) : ℤ) : ℝ) : ℂ)
            * cexp (-2 * Real.pi * ((k : ℝ) * (n : ℝ)) / 8192) := by
  rw [dftCoeff, windowOf_length]
  push_cast
  apply Finset.sum_congr rfl
  intro n hn
  have hn8 : n < 8192 := Finset.mem_range.mp hn
  rw [windowOf_eq]
  rw [getD_map_range 8192 n _ 0 hn8]
  push_cast
  ring

set_option maxRecDepth 2000 in
/-- Decomposition of the window's DFT into the exact multi-tone part and the
quantization-error part. -/
theorem dftCoeff_windowOf_split (b k : ℕ) :
    dftCoeff (windowOf b) k
      = (32767 / 8 : ℂ) * ∑ bit ∈ Finset.range 8, sinSum (toneNat bit b) k
        + ∑ n ∈ Finset.range 8192,
            ((errOf b n : ℝ) : ℂ) * cexp (-2 * Real.pi * ((k : ℝ) * (n : ℝ)) / 8192) := by
  rw [dftCoeff_windowOf]
  have hterm : ∀ n ∈ Finset.range 8192,
      (((i16trunc (synthY b n) : ℤ) : ℝ) : ℂ)
          * cexp (-2 * Real.pi * ((k : ℝ) * (n : ℝ)) / 8192)
        = ((synthY b n : ℝ) : ℂ) * cexp (-2 * Real.pi * ((k : ℝ) * (n : ℝ)) / 8192)
          + ((errOf b n : ℝ) : ℂ) * cexp (-2 * Real.pi * ((k : ℝ) * (n : ℝ)) / 8192) := by
    intro n _
    rw [errOf]
    push_cast
    ring
  rw [Finset.sum_congr rfl hterm]
  rw [Finset.sum_add_distrib, add_left_inj]
  have hy : ∀ n ∈ Finset.range 8192,
      ((synthY b n : ℝ) : ℂ) * cexp (-2 * Real.pi * ((k : ℝ) * (n : ℝ)) / 8192)
        = (32767 / 8 : ℂ) * ∑ bit ∈ Finset.range 8,
            ((Real.sin (2 * Real.pi * ((toneNat bit b : ℕ) : ℝ) * ((n : ℝ) / 8192)) : ℝ) : ℂ)
              * cexp (-2 * Real.pi * ((k : ℝ) * (n : ℝ)) / 8192) := by
    intro n _
    rw [synthY]
    push_cast
    rw [Finset.sum_div, Finset.sum_mul, Finset.sum_mul, Finset.mul_sum]
    apply Finset.sum_congr rfl
    intro bit _
    ring
  rw [Finset.sum_congr rfl hy, ← Finset.mul_sum, Finset.sum_comm]
  simp only [sinSum]

/-- `sin θ` expressed with phase factors. -/
theorem ofReal_sin_cexp (θ : ℝ) :
    ((Real.sin θ : ℝ) : ℂ) = (cexp (-θ) - cexp θ) * Complex.I / 2 := by
  rw [Complex.ofReal_sin]
  unfold Complex.sin
  rw [cexp, cexp]
  push_cast
  ring

/-- Product of phase factors. -/
theorem cexp_mul_cexp (a b : ℝ) : cexp a * cexp b = cexp (a + b) := (cexp_add a b).symm

/-- Closed form of `sinSum` by the geometric sum of roots of unity. -/
theorem sinSum_eq (f k : ℕ) :
    sinSum f k
      = ((if (8192 : ℤ) ∣ ((f : ℤ) + k) then (8192 : ℂ) else 0)
          - (if (8192 : ℤ) ∣ ((f : ℤ) - k) then (8192 : ℂ) else 0)) * Complex.I / 2 := by
  have h1 : ∀ n ∈ Finset.range 8192,
      ((Real.sin (2 * Real.pi * (f : ℝ) * ((n : ℝ) / 8192)) : ℝ) : ℂ)
          * cexp (-2 * Real.pi * ((k : ℝ) * (n : ℝ)) / 8192)
        = (cexp (2 * Real.pi * (((-((f : ℤ) + k)) : ℤ) : ℝ) * (n : ℝ) / ((8192 : ℕ) : ℝ))
            - cexp (2 * Real.pi * ((((f : ℤ) - k) : ℤ) : ℝ) * (n : ℝ) / ((8192 : ℕ) : ℝ)))
            * Complex.I / 2 := by
    intro n _
    rw [ofReal_sin_cexp]
    calc (cexp (-(2 * Real.pi * (f : ℝ) * ((n : ℝ) / 8192)))
            - cexp (2 * Real.pi * (f : ℝ) * ((n : ℝ) / 8192))) * Complex.I / 2
          * cexp (-2 * Real.pi * ((k : ℝ) * (n : ℝ)) / 8192)
        = (cexp (-(2 * Real.pi * (f : ℝ) * ((n : ℝ) / 8192)))
              * cexp (-2 * Real.pi * ((k : ℝ) * (n : ℝ)) / 8192)
            - cexp (2 * Real.pi * (f : ℝ) * ((n : ℝ) / 8192))
              * cexp (-2 * Real.pi * ((k : ℝ) * (n : ℝ)) / 8192)) * Complex.I / 2 := by
          ring
      _ = (cexp (-(2 * Real.pi * (f : ℝ) * ((n : ℝ) / 8192))
              + -2 * Real.pi * ((k : ℝ) * (n : ℝ)) / 8192)
            - cexp (2 * Real.pi * (f : ℝ) * ((n : ℝ) / 8192)
              + -2 * Real.pi * ((k : ℝ) * (n : ℝ)) / 8192)) * Complex.I / 2 := by
          rw [cexp_mul_cexp, cexp_mul_cexp]
      _ = (cexp (2 * Real.pi * (((-((f : ℤ) + k)) : ℤ) : ℝ) * (n : ℝ) / ((8192 : ℕ) : ℝ))
            - cexp (2 * Real.pi * ((((f : ℤ) - k) : ℤ) : ℝ) * (n : ℝ) / ((8192 : ℕ) : ℝ)))
            * Complex.I / 2 := by
          rw [show -(2 * Real.pi * (f : ℝ) * ((n : ℝ) / 8192))
                + -2 * Real.pi * ((k : ℝ) * (n : ℝ)) / 8192
              = 2 * Real.pi * (((-((f : ℤ) + k)) : ℤ) : ℝ) * (n : ℝ) / ((8192 : ℕ) : ℝ) from by
            push_cast
            ring]
          rw [show 2 * Real.pi * (f : ℝ) * ((n : ℝ) / 8192)
                + -2 * Real.pi * ((k : ℝ) * (n : ℝ)) / 8192
              = 2 * Real.pi * ((((f : ℤ) - k) : ℤ) : ℝ) * (n : ℝ) / ((8192 : ℕ) : ℝ) from by
            push_cast
            ring]
  rw [sinSum, Finset.sum_congr rfl h1]
  rw [← Finset.sum_div, ← Finset.sum_mul, Finset.sum_sub_distrib]
  rw [sum_cexp_int 8192 (by norm_num) (-((f : ℤ) + k)),
    sum_cexp_int 8192 (by norm_num) ((f : ℤ) - k)]
  simp only [Int.dvd_neg]
  push_cast
  ring_nf


/-- The window length 8192 does not divide a nonzero offset smaller than it. -/
theorem not_dvd_8192 {z : ℤ} (hz : z ≠ 0) (habs : -8192 < z ∧ z < 8192) :
    ¬ (8192 : ℤ) ∣ z := by
  intro hd
  have h0 : z = 0 := Int.eq_zero_of_abs_lt_dvd hd (by rw [abs_lt]; omega)
  exact hz h0

/-- The sampled sinusoid at its own bin has DFT value `−4096 i`. -/
theorem sinSum_self (f : ℕ) (h1 : 300 ≤ f) (h2 : f ≤ 3300) :
    sinSum f f = -(4096 : ℂ) * Complex.I := by
  rw [sinSum_eq]
  rw [if_neg (not_dvd_8192 (by omega) (by omega)), if_pos (by simp)]
  norm_num
  ring

/-- The sampled sinusoid vanishes at every other analysis bin of the lower
half-spectrum. -/
theorem sinSum_other (f k : ℕ) (hf1 : 300 ≤ f) (hf2 : f ≤ 3300)
    (hk1 : 1 ≤ k) (hk2 : k ≤ 4095) (hne : f ≠ k) :
    sinSum f k = 0 := by
  rw [sinSum_eq]
  rw [if_neg (not_dvd_8192 (by omega) (by omega)),
    if_neg (not_dvd_8192 (by omega) (by omega))]
  ring

/-- The exact multi-tone spectrum at a tone bin of byte `b`. -/
theorem idealSum_tone (b i : ℕ) (hi : i < 8) :
    ∑ bit ∈ Finset.range 8, sinSum (toneNat bit b) (toneNat i b)
      = -(4096 : ℂ) * Complex.I := by
  rw [Finset.sum_eq_single i]
  · exact sinSum_self _ (toneNat_bounds i b hi).1 (toneNat_bounds i b hi).2
  · intro j hj hne
    have hj8 : j < 8 := Finset.mem_range.mp hj
    refine sinSum_other _ _ (toneNat_bounds j b hj8).1 (toneNat_bounds j b hj8).2
      (by have := (toneNat_bounds i b hi).1; omega)
      (by have := (toneNat_bounds i b hi).2; omega)
      fun h => hne (toneNat_injective b h)
  · intro h
    exact absurd (Finset.mem_range.mpr hi) h

/-- The exact multi-tone spectrum vanishes at every non-tone bin of the lower
half-spectrum. -/
theorem idealSum_nontone (b k : ℕ) (hk1 : 1 ≤ k) (hk2 : k ≤ 4095)
    (hnot : ∀ j, j < 8 → toneNat j b ≠ k) :
    ∑ bit ∈ Finset.range 8, sinSum (toneNat bit b) k = 0 :=
  Finset.sum_eq_zero fun j hj => by
    have hj8 : j < 8 := Finset.mem_range.mp hj
    exact sinSum_other _ _ (toneNat_bounds j b hj8).1 (toneNat_bounds j b hj8).2
      hk1 hk2 (hnot j hj8)

/-- The quantization-error contribution to any bin is at most 8192. -/
theorem errPart_bound (b k : ℕ) :
    Complex.abs (∑ n ∈ Finset.range 8192,
        ((errOf b n : ℝ) : ℂ) * cexp (-2 * Real.pi * ((k : ℝ) * (n : ℝ)) / 8192)) ≤ 8192 := by
  calc Complex.abs (∑ n ∈ Finset.range 8192,
        ((errOf b n : ℝ) : ℂ) * cexp (-2 * Real.pi * ((k : ℝ) * (n : ℝ)) / 8192))
      ≤ ∑ n ∈ Finset.range 8192, Complex.abs
          (((errOf b n : ℝ) : ℂ) * cexp (-2 * Real.pi * ((k : ℝ) * (n : ℝ)) / 8192)) :=
        Complex.abs.sum_le _ _
    _ ≤ ∑ _n ∈ Finset.range 8192, (1 : ℝ) := by
        apply Finset.sum_le_sum
        intro n _
        rw [map_mul, abs_cexp, mul_one, Complex.abs_ofReal]
        exact i16trunc_err_le (synthY b n)
    _ = 8192 := by simp

/-- At each of the byte's eight tone bins, the window's spectral magnitude
strictly exceeds 8192. -/
theorem abs_dftCoeff_tone (b i : ℕ) (hi : i < 8) :
    8192 < Complex.abs (dftCoeff (windowOf b) (toneNat i b)) := by
  rw [dftCoeff_windowOf_split, idealSum_tone b i hi]
  have hE := errPart_bound b (toneNat i b)
  have hA : Complex.abs ((32767 / 8 : ℂ) * (-(4096 : ℂ) * Complex.I)) = 16776704 := by
    rw [map_mul, map_mul, Complex.abs_I, map_neg_eq_map]
    rw [show ((32767 / 8 : ℂ)) = (((32767 / 8 : ℝ)) : ℂ) from by push_cast; rfl]
    rw [show ((4096 : ℂ)) = (((4096 : ℝ)) : ℂ) from by push_cast; rfl]
    rw [Complex.abs_ofReal, Complex.abs_ofReal]
    rw [abs_of_pos (by norm_num), abs_of_pos (by norm_num)]
    norm_num
  have htri : Complex.abs ((32767 / 8 : ℂ) * (-(4096 : ℂ) * Complex.I))
      ≤ Complex.abs ((32767 / 8 : ℂ) * (-(4096 : ℂ) * Complex.I)
          + ∑ n ∈ Finset.range 8192, ((errOf b n : ℝ) : ℂ)
              * cexp (-2 * Real.pi * (((toneNat i b : ℕ) : ℝ) * (n : ℝ)) / 8192))
        + Complex.abs (∑ n ∈ Finset.range 8192, ((errOf b n : ℝ) : ℂ)
            * cexp (-2 * Real.pi * (((toneNat i b : ℕ) : ℝ) * (n : ℝ)) / 8192)) := by
    have h := Complex.abs.add_le
      ((32767 / 8 : ℂ) * (-(4096 : ℂ) * Complex.I)
        + ∑ n ∈ Finset.range 8192, ((errOf b n : ℝ) : ℂ)
            * cexp (-2 * Real.pi * (((toneNat i b : ℕ) : ℝ) * (n : ℝ)) / 8192))
      (-(∑ n ∈ Finset.range 8192, ((errOf b n : ℝ) : ℂ)
          * cexp (-2 * Real.pi * (((toneNat i b : ℕ) : ℝ) * (n : ℝ)) / 8192)))
    rw [add_neg_cancel_right, map_neg_eq_map] at h
    exact h
  rw [hA] at htri
  linarith

/-- At every non-tone bin of the considered range, the window's spectral
magnitude is at most 8192. -/
theorem abs_dftCoeff_nontone (b k : ℕ) (hk1 : 1 ≤ k) (hk2 : k ≤ 4095)
    (hnot : ∀ j, j < 8 → toneNat j b ≠ k) :
    Complex.abs (dftCoeff (windowOf b) k) ≤ 8192 := by
  rw [dftCoeff_windowOf_split, idealSum_nontone b k hk1 hk2 hnot, mul_zero, zero_add]
  exact errPart_bound b k

/-- Membership in a step-1 `range'`. -/
theorem mem_range'_iff {s n m : ℕ} : m ∈ List.range' s n ↔ s ≤ m ∧ m < s + n := by
  rw [List.mem_range']
  constructor
  · rintro ⟨i, hi, rfl⟩
    omega
  · rintro ⟨h1, h2⟩
    exact ⟨m - s, by omega, by omega⟩

/-- In a sorted list, a predicate closed under moving up the order is
satisfied exactly by a prefix. -/
theorem takeWhile_eq_filter_of_sorted {β : Type} {r : β → β → Prop} {p : β → Bool} :
    ∀ {l : List β}, l.Sorted r → (∀ a b, r a b → p b = true → p a = true) →
      l.takeWhile p = l.filter p := by
  intro l
  induction l with
  | nil => intro _ _; rfl
  | cons a t ih =>
    intro hs hcl
    rw [List.sorted_cons] at hs
    by_cases hp : p a
    · rw [List.takeWhile_cons_of_pos hp, List.filter_cons_of_pos hp, ih hs.2 hcl]
    · rw [List.takeWhile_cons_of_neg (by simpa using hp),
        List.filter_cons_of_neg (by simpa using hp)]
      have ht : t.filter p = [] := by
        rw [List.filter_eq_nil_iff]
        intro x hx
        intro hpx
        exact hp (hcl a x (hs.1 x hx) hpx)
      rw [ht]

/-- If exactly `m` pairs lie strictly above the threshold `T`, the first `m`
entries of the descending sort are (a permutation of) precisely those pairs. -/
theorem take_sortPairsDesc_perm_filter {α : Type} [LinearOrder α] (l : List (α × ℕ))
    (T : α) (m : ℕ) (hlen : (l.filter fun x => decide (T < x.1)).length = m) :
    ((sortPairsDesc l).take m).Perm (l.filter fun x => decide (T < x.1)) := by
  have hsorted : (sortPairsDesc l).Sorted pairGe := sortPairsDesc_sorted l
  have hcl : ∀ a b : α × ℕ, pairGe a b
      → (fun x : α × ℕ => decide (T < x.1)) b = true
      → (fun x : α × ℕ => decide (T < x.1)) a = true := by
    intro a b hr hb
    simp only [decide_eq_true_eq] at hb ⊢
    rcases hr with h | ⟨h1, _⟩
    · exact hb.trans h
    · rw [h1]
      exact hb
  have htf := takeWhile_eq_filter_of_sorted hsorted hcl
  have hperm : ((sortPairsDesc l).filter fun x => decide (T < x.1)).Perm
      (l.filter fun x => decide (T < x.1)) := (sortPairsDesc_perm l).filter _
  have hflen : ((sortPairsDesc l).filter fun x => decide (T < x.1)).length = m :=
    hperm.length_eq.trans hlen
  have hlen2 : ((sortPairsDesc l).takeWhile fun x => decide (T < x.1)).length = m := by
    rw [htf]
    exact hflen
  have htake : (sortPairsDesc l).take m
      = (sortPairsDesc l).takeWhile fun x => decide (T < x.1) := by
    conv_lhs => rw [← List.takeWhile_append_dropWhile
      (p := fun x : α × ℕ => decide (T < x.1)) (l := sortPairsDesc l)]
    exact List.take_left' hlen2
  rw [htake, htf]
  exact hperm

theorem magnitudePairs_windowOf (b : ℕ) :
    magnitudePairs (fft (windowOf b)) 8192
      = (List.range' 1 4095).map fun i => (Complex.abs (dftCoeff (windowOf b) i), i) := by
  have hfft : fft (windowOf b) = dft (windowOf b) :=
    fft_eq_dft 13 _ (by rw [windowOf_length]; norm_num)
  rw [magnitudePairs, hfft]
  apply List.map_congr_left
  intro i hi
  have hib : 1 ≤ i ∧ i < 1 + 4095 := mem_range'_iff.mp (by simpa using hi)
  rw [dft_getD _ _ (by rw [windowOf_length]; omega)]

theorem filter_big_perm (b : ℕ) :
    ((magnitudePairs (fft (windowOf b)) 8192).filter
        fun x => decide ((8192 : ℝ) < x.1)).Perm
      ((toneBinsList b).map fun i => (Complex.abs (dftCoeff (windowOf b) i), i)) := by
  rw [magnitudePairs_windowOf, List.filter_map]
  have hcong : (List.range' 1 4095).filter
        ((fun x : ℝ × ℕ => decide ((8192 : ℝ) < x.1))
          ∘ fun i => (Complex.abs (dftCoeff (windowOf b) i), i))
      = (List.range' 1 4095).filter fun i => decide (i ∈ toneBinsList b) := by
    apply List.filter_congr
    intro i hi
    have hib : 1 ≤ i ∧ i < 1 + 4095 := mem_range'_iff.mp hi
    simp only [Function.comp_apply, decide_eq_decide]
    constructor
    · intro habs
      by_contra hmem
      have hnot : ∀ j, j < 8 → toneNat j b ≠ i := by
        intro j hj hne
        exact hmem (by rw [← hne]; exact List.mem_map_of_mem _ (List.mem_range.mpr hj))
      exact absurd habs (not_lt.mpr (abs_dftCoeff_nontone b i hib.1 (by omega) hnot))
    · intro hmem
      obtain ⟨j, hj, rfl⟩ := List.mem_map.mp hmem
      exact abs_dftCoeff_tone b j (List.mem_range.mp hj)
  rw [hcong]
  apply List.Perm.map
  apply (List.perm_ext_iff_of_nodup ((List.nodup_range' _ _).filter _)
    (toneBinsList_nodup b)).mpr
  intro x
  rw [List.mem_filter, mem_range'_iff, decide_eq_true_eq]
  constructor
  · rintro ⟨_, hx⟩
    exact hx
  · intro hx
    obtain ⟨j, hj, rfl⟩ := List.mem_map.mp hx
    have hb := toneNat_bounds j b (List.mem_range.mp hj)
    exact ⟨⟨by omega, by omega⟩, hx⟩

/-- The analyzer's detected top-8 frequency list for the synthesized window
of byte `b` is a permutation of the byte's eight tone frequencies. -/
theorem detected_perm_tones (b : ℕ) :
    (getTop8Frequencies (fft (windowOf b)) 8192 8192).Perm (toneFreqList b) := by
  have hlen : ((magnitudePairs (fft (windowOf b)) 8192).filter
      fun x => decide ((8192 : ℝ) < x.1)).length = 8 := by
    rw [(filter_big_perm b).length_eq, List.length_map, toneBinsList, List.length_map]
    simp
  have htake := take_sortPairsDesc_perm_filter
    (magnitudePairs (fft (windowOf b)) 8192) (8192 : ℝ) 8 hlen
  have hperm2 := htake.trans (filter_big_perm b)
  rw [getTop8Frequencies]
  have hmap := hperm2.map fun p : ℝ × ℕ => (p.2 : ℝ) * 8192 / ((8192 : ℕ) : ℝ)
  refine hmap.trans ?_
  rw [List.map_map, toneFreqList_eq_map]
  apply List.Perm.of_eq
  apply List.map_congr_left
  intro i _
  simp only [Function.comp_apply]
  push_cast
  field_simp

/-- Scanning the position's own tone from the initial state records it with
distance 0 and sets the bit according to the encoder's bit value. -/
theorem scanFreq_tone (i b : ℕ) (hi8 : i < 8) :
    scanFreq ((400 * i + 300 : ℕ) : ℝ) ((400 * i + 500 : ℕ) : ℝ)
        ((toneNat i b : ℕ) : ℝ) (false, false, 1000, 0)
      = (!(decide ((b >>> (7 - i)) &&& 1 = 1)), decide ((b >>> (7 - i)) &&& 1 = 1), 0,
          ((toneNat i b : ℕ) : ℝ)) := by
  by_cases hb : (b >>> (7 - i)) &&& 1 = 1
  · simp only [toneNat, if_pos hb, hb, decide_True, Bool.not_true]
    interval_cases i <;> norm_num [scanFreq, abs]
  · simp only [toneNat, if_neg hb, hb, decide_False, Bool.not_false]
    interval_cases i <;> norm_num [scanFreq, abs]

/-- Classification of bit position `i` over any permutation of the tone
list: the bit resolves to the encoded bit value and the matched frequency is
the position's own tone. -/
theorem classifyBit_perm_tones (b i : ℕ) (hi8 : i < 8) (fs : List ℝ)
    (hperm : fs.Perm (toneFreqList b)) :
    classifyBit ((400 * i + 300 : ℕ) : ℝ) ((400 * i + 500 : ℕ) : ℝ) fs
      = (decide ((b >>> (7 - i)) &&& 1 = 1), ((toneNat i b : ℕ) : ℝ)) := by
  have htone_mem : ((toneNat i b : ℕ) : ℝ) ∈ fs :=
    hperm.mem_iff.mpr
      (List.mem_map_of_mem (fun j => ((toneNat j b : ℕ) : ℝ)) (List.mem_range.mpr hi8))
  obtain ⟨l₁, l₂, hfs⟩ := List.append_of_mem htone_mem
  subst hfs
  have hcount : (l₁ ++ ((toneNat i b : ℕ) : ℝ) :: l₂).count ((toneNat i b : ℕ) : ℝ) = 1 := by
    rw [hperm.count_eq]
    exact List.count_eq_one_of_mem (toneFreqList_nodup b)
      (List.mem_map_of_mem _ (List.mem_range.mpr hi8))
  have hnotmem : ((toneNat i b : ℕ) : ℝ) ∉ l₁ ∧ ((toneNat i b : ℕ) : ℝ) ∉ l₂ := by
    rw [List.count_append, List.count_cons_self] at hcount
    constructor <;> rw [← List.count_eq_zero] <;> omega
  have hfar : ∀ g : ℝ, g ∈ l₁ ∨ g ∈ l₂ →
      ¬(|g - ((400 * i + 300 : ℕ) : ℝ)| < 50) ∧ ¬(|g - ((400 * i + 500 : ℕ) : ℝ)| < 50) := by
    intro g hg
    have hgfs : g ∈ l₁ ++ ((toneNat i b : ℕ) : ℝ) :: l₂ := by
      rcases hg with hg | hg
      · exact List.mem_append_left _ hg
      · exact List.mem_append_right _ (List.mem_cons_of_mem _ hg)
    have hgt : g ∈ toneFreqList b := hperm.subset hgfs
    obtain ⟨j, hj, rfl⟩ := List.mem_map.mp hgt
    have hj8 : j < 8 := List.mem_range.mp hj
    have hne : j ≠ i := by
      intro h
      subst h
      rcases hg with hg | hg
      · exact hnotmem.1 hg
      · exact hnotmem.2 hg
    exact tone_far b i j hi8 hj8 hne
  rw [classifyBit, List.foldl_append, foldl_scanFreq_far _ _ l₁ _
    (fun f hf => hfar f (Or.inl hf)), List.foldl_cons, scanFreq_tone i b hi8,
    foldl_scanFreq_far _ _ l₂ _ (fun f hf => hfar f (Or.inr hf))]

/-- The classifier's eight resolved bits over any permutation of the tone
list are exactly the encoder's MSB-first bit values. -/
theorem classifyBits_perm_tones (b : ℕ) (fs : List ℝ) (hperm : fs.Perm (toneFreqList b)) :
    classifyBits (K := ℝ) fs
      = (List.range 8).map fun i => decide ((b >>> (7 - i)) &&& 1 = 1) := by
  rw [classifyBits]
  apply List.map_congr_left
  intro i hi
  have hi8 : i < 8 := List.mem_range.mp hi
  rw [bitFrequencyPairs_getD i hi8]
  show (classifyBit ((400 * i + 300 : ℕ) : ℝ) ((400 * i + 500 : ℕ) : ℝ) fs).1 = _
  rw [classifyBit_perm_tones b i hi8 fs hperm]

set_option maxRecDepth 8000 in
/-- Reassembling the byte from its MSB-first bits is the identity below 256. -/
theorem bitsToByte_decide_eq :
    ∀ b : Fin 256,
      bitsToByte ((List.range 8).map fun i => decide ((b.val >>> (7 - i)) &&& 1 = 1)) = b.val := by
  decide

/-- **C1.** Round trip: synthesizing the one-byte message `[b]` with the
multi-tone synthesizer at the agreed configuration (matching 8-entry table,
50 Hz tolerance, 8192 Hz sample rate, window length 8192 = 2¹³ satisfying the
power-of-two precondition), transforming the resulting window, extracting
the top-8 peaks and classifying them recovers exactly the byte `b`. -/
theorem roundTrip_multiTone (b : Fin 256) :
    frequenciesToByte (getTop8Frequencies
        (fft ((sineGenSamples [b.val] 1 0 (8192 / 1000)).map fun (v : ℤ) => ((v : ℝ) : ℂ)))
        8192 8192)
      = b.val := by
  have hwin : (sineGenSamples [b.val] 1 0 (8192 / 1000)).map (fun (v : ℤ) => ((v : ℝ) : ℂ))
      = windowOf b.val := rfl
  rw [hwin, frequenciesToByte,
    classifyBits_perm_tones b.val _ (detected_perm_tones b.val)]
  exact bitsToByte_decide_eq b
